import Mathlib

set_option maxRecDepth 100000

/-!  Verification development for the SLIK text-extraction engine
(`slik_extractor.py`).  Text is modelled as `List Char`; each Python regex
used by the source is embedded as a deterministic scanner whose greedy /
lazy behaviour is derived from the pattern shape (every greedy piece in the
patterns below is followed by a requirement outside its character class, so
backtracking never fires and maximal-munch scanning is exact).  -/

/-- ASCII whitespace, modelling Python's whitespace class on the ASCII
documents this extractor handles. -/
def isWs (c : Char) : Bool :=
  c == ' ' || c == '\t' || c == '\n' || c == '\r' || c == '\x0b' || c == '\x0c'

/-- Characters of the amount class `[\d.,]`. -/
def isAmtChar (c : Char) : Bool := c.isDigit || c == '.' || c == ','

/-- Characters of the word class `\w` (ASCII). -/
def isWordChar (c : Char) : Bool := c.isAlphanum || c == '_'

/-- Case-insensitive character equality (ASCII lowering), modelling
IGNORECASE matching and `str.lower()` comparisons. -/
def ciEq (a b : Char) : Bool := a.toLower == b.toLower

/-- Case-insensitive "pat is a prefix of s". -/
def ciStarts : List Char → List Char → Bool
  | [], _ => true
  | _ :: _, [] => false
  | p :: ps, c :: cs => ciEq p c && ciStarts ps cs

/-- Worker for `ciFindIdx`. -/
def ciFindIdxGo (pat : List Char) : Nat → List Char → Option Nat
  | i, [] => if ciStarts pat [] then some i else none
  | i, s@(_ :: cs) => if ciStarts pat s then some i else ciFindIdxGo pat (i + 1) cs

/-- Index of the first case-insensitive occurrence of `pat` in `s`
(Python's `s.lower().find(pat.lower())`, or an IGNORECASE literal search). -/
def ciFindIdx (s pat : List Char) : Option Nat := ciFindIdxGo pat 0 s

/-- Worker for `subFindIdx` (case-sensitive substring search). -/
def subFindIdxGo (pat : List Char) : Nat → List Char → Option Nat
  | i, [] => if pat.isEmpty then some i else none
  | i, s@(_ :: cs) => if pat.isPrefixOf s then some i else subFindIdxGo pat (i + 1) cs

/-- Index of the first (case-sensitive) occurrence of `pat` in `s`. -/
def subFindIdx (s pat : List Char) : Option Nat := subFindIdxGo pat 0 s

/-- Strip characters satisfying `p` from both ends (Python `str.strip`). -/
def stripChar (p : Char → Bool) (s : List Char) : List Char :=
  ((s.dropWhile p).reverse.dropWhile p).reverse

/-- Strip characters satisfying `p` from the right end only. -/
def rstrip (p : Char → Bool) (s : List Char) : List Char :=
  (s.reverse.dropWhile p).reverse

/-- State-machine form of replacing every maximal run of `p`-characters by
the single character `rep`; the Bool records whether the previous character
was in a run. -/
def collapseRunsGo (p : Char → Bool) (rep : Char) : Bool → List Char → List Char
  | _, [] => []
  | prev, c :: cs =>
    if p c then
      if prev then collapseRunsGo p rep true cs else rep :: collapseRunsGo p rep true cs
    else c :: collapseRunsGo p rep false cs

/-- Python `str.strip()` (whitespace at both ends). -/
def pystrip (s : List Char) : List Char := stripChar isWs s

/-- clean, from the source: substitute every whitespace run by one space,
then strip. -/
def clean (s : List Char) : List Char := pystrip (collapseRunsGo isWs ' ' false s)

/-- Sequential terminator truncation from `extract_field`: for each
terminator in list order, truncate the current value at that terminator's
first case-insensitive occurrence, if any. -/
def truncSeq (terms : List (List Char)) (v : List Char) : List Char :=
  terms.foldl (fun val t =>
    match ciFindIdx val t with
    | some i => val.take i
    | none => val) v

/-- extract_field from the source.  The searched pattern is the escaped
label followed by a whitespace star and a captured dot-star, under
IGNORECASE: it matches at the first case-insensitive occurrence of the
label; the capture then covers the text after the maximal whitespace run up
to the next newline (a dot does not cross a line).  The captured value is
stripped, truncated sequentially at the terminators, and cleaned. -/
def extract_field (text label : List Char) (terms : List (List Char)) : List Char :=
  match ciFindIdx text label with
  | none => []
  | some i =>
    let value := pystrip (((text.drop (i + label.length)).dropWhile isWs).takeWhile (fun c => c != '\n'))
    clean (truncSeq terms value)

/-- Worker for `splitRuns`; the accumulator holds the current word
reversed. -/
def splitRunsGo (p : Char → Bool) : List Char → List Char → List (List Char)
  | acc, [] => if acc.isEmpty then [] else [acc.reverse]
  | acc, c :: cs =>
    if p c then
      if acc.isEmpty then splitRunsGo p [] cs else acc.reverse :: splitRunsGo p [] cs
    else splitRunsGo p (c :: acc) cs

/-- Split on maximal runs of `p`-characters, dropping empty pieces. -/
def splitRuns (p : Char → Bool) (s : List Char) : List (List Char) :=
  splitRunsGo p [] s

/-- Python `str.split()` with no separator. -/
def pysplit (s : List Char) : List (List Char) := splitRuns isWs s

/-- Join a list of pieces with the single character `c` between them
(Python `c.join(pieces)`). -/
def joinSep (c : Char) : List (List Char) → List Char
  | [] => []
  | [w] => w
  | w :: ws => w ++ c :: joinSep c ws

/-- Space-join, as used for candidate prefixes in `split_bank_cabang`. -/
def joinSpace (ws : List (List Char)) : List Char := joinSep ' ' ws

/-- One iteration of the prefix-doubling loop in `split_bank_cabang`: form
the candidate from the first `i` words, check that the rest of the string
(after `len(candidate)` characters, stripped) starts with the candidate and
that the remainder after the second copy is non-empty. -/
def sbcCheck (full : List Char) (words : List (List Char)) (i : Nat) :
    Option (List Char × List Char) :=
  let candidate := joinSpace (words.take i)
  let rest := pystrip (full.drop candidate.length)
  if candidate.isPrefixOf rest then
    let cabang := pystrip (rest.drop candidate.length)
    if cabang.isEmpty then none else some (candidate, cabang)
  else none

/-- First `some` value of `f` over a list of indices (the early return of a
Python for-loop). -/
def firstHit (f : Nat → Option α) : List Nat → Option α
  | [] => none
  | i :: is =>
    match f i with
    | some v => some v
    | none => firstHit f is

/-- True when the text is at its end or starts with whitespace - the
trailing group `\s` or end of the marker regex. -/
def wsOrEnd : List Char → Bool
  | [] => true
  | c :: _ => isWs c

/-- Marker alternatives of the fallback regex in `split_bank_cabang`,
checked right after a whitespace run: `KC` followed by letters then
whitespace-or-end, or `CAPEM`, or `KANTOR` whitespace `CABANG`; all
case-insensitive. -/
def markerAt (rest : List Char) : Bool :=
  (ciStarts "KC".toList rest && wsOrEnd ((rest.drop 2).dropWhile (fun c => c.isAlpha)))
  || (ciStarts "CAPEM".toList rest && wsOrEnd (rest.drop 5))
  || (ciStarts "KANTOR".toList rest &&
        (let r2 := rest.drop 6
         (match r2 with
          | [] => false
          | c :: _ => isWs c) &&
         (let r3 := r2.dropWhile isWs
          ciStarts "CABANG".toList r3 && wsOrEnd (r3.drop 6))))

/-- Worker for `findMarker`: scan left to right; the leftmost match of the
marker regex starts at the first whitespace position whose maximal run is
followed by a marker alternative. -/
def findMarkerGo : Nat → List Char → Option Nat
  | _, [] => none
  | pos, c :: cs =>
    if isWs c && markerAt ((c :: cs).dropWhile isWs) then some pos
    else findMarkerGo (pos + 1) cs

/-- Start offset of the leftmost match of the branch-marker regex. -/
def findMarker (s : List Char) : Option Nat := findMarkerGo 0 s

/-- split_bank_cabang from the source: prefix-doubling loop over candidate
word-prefix lengths from 2 up, then the branch-marker fallback with
halving, then the whole string unsplit. -/
def split_bank_cabang (s : List Char) : List Char × List Char :=
  let words := pysplit s
  match firstHit (sbcCheck s words) (List.range' 2 (words.length + 1 - 2)) with
  | some p => p
  | none =>
    match findMarker s with
    | some pos =>
      let beforeKc := pystrip (s.take pos)
      let bwords := pysplit beforeKc
      let half := bwords.length / 2
      let beforeKc2 :=
        if half > 0 && (joinSpace (bwords.take half) == joinSpace (bwords.drop half)) then
          joinSpace (bwords.take half)
        else beforeKc
      (beforeKc2, pystrip (s.drop pos))
    | none => (s, [])

/-- Consume a case-sensitive literal. -/
def expectLit : List Char → List Char → Option (List Char)
  | [], s => some s
  | _ :: _, [] => none
  | p :: ps, c :: cs => if p == c then expectLit ps cs else none

/-- Consume a case-insensitive literal. -/
def ciExpectLit : List Char → List Char → Option (List Char)
  | [], s => some s
  | _ :: _, [] => none
  | p :: ps, c :: cs => if ciEq p c then ciExpectLit ps cs else none

/-- Consume one expected character. -/
def expectChar (ch : Char) : List Char → Option (List Char)
  | [] => none
  | c :: cs => if c == ch then some cs else none

/-- Consume a whitespace-plus: in every pattern below the piece after a
whitespace-plus starts with a non-whitespace character, so the maximal run
is consumed with no backtracking. -/
def expectWs1 : List Char → Option (List Char)
  | [] => none
  | c :: cs => if isWs c then some (cs.dropWhile isWs) else none

/-- Consume a whitespace-star (same committed-maximal argument). -/
def skipWs (s : List Char) : List Char := s.dropWhile isWs

/-- Consume a nonempty maximal run of class characters; committed because
every following piece in the patterns below starts outside the class. -/
def spanClass1 (p : Char → Bool) (s : List Char) : Option (List Char × List Char) :=
  let run := s.takeWhile p
  if run.isEmpty then none else some (run, s.dropWhile p)

/-- Consume exactly `n` digits. -/
def expectDigits : Nat → List Char → Option (List Char)
  | 0, s => some s
  | _ + 1, [] => none
  | n + 1, c :: cs => if c.isDigit then expectDigits n cs else none

/-- Tail of the block-header regex after a candidate end of the lazy
organization group: whitespace-plus, `Rp`, whitespace-star, an amount run
(group 3), whitespace-plus, two digits, whitespace-plus, a word run,
whitespace-plus, four digits. -/
def headerTail (u : List Char) : Option (List Char × List Char) := do
  let u1 ← expectWs1 u
  let u2 ← expectLit "Rp".toList u1
  let (g3, u4) ← spanClass1 isAmtChar (skipWs u2)
  let u5 ← expectWs1 u4
  let u6 ← expectDigits 2 u5
  let u7 ← expectWs1 u6
  let (_, u8) ← spanClass1 isWordChar u7
  let u9 ← expectWs1 u8
  let u10 ← expectDigits 4 u9
  some (g3, u10)

/-- Lazy expansion of the organization group (one-or-more dots, reluctant):
grow one character at a time, never across a newline, and accept the
shortest group whose tail matches. -/
def headerG2Go (g2rev : List Char) : List Char → Option (List Char × List Char × List Char)
  | [] => none
  | c :: cs =>
    if c == '\n' then none
    else
      match headerTail cs with
      | some (g3, rem) => some ((c :: g2rev).reverse, g3, rem)
      | none => headerG2Go (c :: g2rev) cs

/-- Matcher for the block-header regex at the head of `s`; returns the
match length together with groups 2 (organization) and 3 (amount). -/
def matchHeader (s : List Char) : Option (Nat × List Char × List Char) := do
  let s1 ← expectDigits 3 s
  let s2 ← expectChar '-' (skipWs s1)
  match headerG2Go [] (skipWs s2) with
  | some (g2, g3, rem) => some (s.length - rem.length, g2, g3)
  | none => none

/-- Fixed facility-section labels from the source. -/
def headingLabels : List (List Char) :=
  ["Garansi Yang Diberikan".toList, "Irrevocable L/C".toList,
   "Surat Berharga".toList, "Fasilitas Lain".toList]

/-- Index of the last newline within a whitespace run, if any. -/
def lastNlCut (run : List Char) : Option Nat :=
  match run.reverse.findIdx? (fun c => c == '\n') with
  | some j => some (run.length - 1 - j)
  | none => none

/-- Try one heading label at a line start: the label (case-insensitively),
then a whitespace-star and a MULTILINE end-of-line.  The match ends at the
end of the text after the trailing run, or just before the last newline
inside that run; with neither, the label is not alone on its line and the
alternative fails. -/
def tryHeading (lab : List Char) (s : List Char) : Option (Nat × List Char) :=
  if ciStarts lab s then
    let rest := s.drop lab.length
    let run := rest.takeWhile isWs
    if (rest.drop run.length).isEmpty then some (lab.length + run.length, s.take lab.length)
    else
      match lastNlCut run with
      | some k => some (lab.length + k, s.take lab.length)
      | none => none
  else none

/-- First heading alternative that matches, in the order of the source
list. -/
def firstHeading : List (List Char) → List Char → Option (Nat × List Char)
  | [], _ => none
  | lab :: labs, s =>
    match tryHeading lab s with
    | some r => some r
    | none => firstHeading labs s

/-- Heading matcher; the caret anchor only lets it fire at the text start
or right after a newline. -/
def matchHeading (atStart : Bool) (s : List Char) : Option (Nat × List Char) :=
  if atStart then firstHeading headingLabels s else none

/-- finditer over a text: scan left to right; at each position try the
matcher (told whether the position is a line start, for MULTILINE
anchors); on a match emit the position and the payload and resume after
the matched characters. -/
def reFinditerGo (m : Bool → List Char → Option (Nat × α)) :
    Nat → Nat → Bool → List Char → List (Nat × α)
  | 0, _, _, _ => []
  | fuel + 1, pos, atStart, s =>
    match s with
    | [] => []
    | c :: cs =>
      match m atStart (c :: cs) with
      | some (len, a) =>
        let k := max len 1
        (pos, a) :: reFinditerGo m fuel (pos + k) (((c :: cs).getD (k - 1) ' ') == '\n') ((c :: cs).drop k)
      | none => reFinditerGo m fuel (pos + 1) (c == '\n') cs

/-- All block-header matches of the document, in position order. -/
def findHeaders (t : List Char) : List (Nat × List Char × List Char) :=
  reFinditerGo (fun _ s => matchHeader s) t.length 0 true t

/-- All facility-section heading matches of the document, in position
order, with the matched label text. -/
def findHeadings (t : List Char) : List (Nat × List Char) :=
  reFinditerGo matchHeading t.length 0 true t

/-- re.search: leftmost position at which the matcher succeeds. -/
def reSearch (m : List Char → Option α) : List Char → Option α
  | [] => none
  | s@(_ :: cs) =>
    match m s with
    | some a => some a
    | none => reSearch m cs

/-- Matcher for the `extract_rp` pattern at the head of `s`: the label,
whitespace-star, `Rp` (case-insensitive throughout), whitespace-star, then
the captured amount run. -/
def rpAt (label : List Char) (s : List Char) : Option (List Char) := do
  let u1 ← ciExpectLit label s
  let u2 ← ciExpectLit "Rp".toList (skipWs u1)
  let (num, _) ← spanClass1 isAmtChar (skipWs u2)
  some num

/-- extract_rp from the source: the amount value after the label, prefixed
with `Rp `, or empty when the shape is absent. -/
def extract_rp (text label : List Char) : List Char :=
  match reSearch (rpAt label) text with
  | some num => "Rp ".toList ++ pystrip num
  | none => []

/-- Tail of the first Kualitas pattern after the literal `Kualitas`:
whitespace-plus then the capture - digits, whitespace-star, a dash,
whitespace-star, and the rest of the line. -/
def kualTail (u : List Char) : Option (List Char) := do
  let u1 ← expectWs1 u
  let (_, u2) ← spanClass1 (fun c => c.isDigit) u1
  let u3 ← expectChar '-' (skipWs u2)
  let (_, u5) ← spanClass1 (fun c => c != '\n') (skipWs u3)
  some (u1.take (u1.length - u5.length))

/-- First Kualitas pattern: the lazy DOTALL dot-star after the first
`No Rekening` reaches the earliest later `Kualitas` whose tail parses. -/
def kualSearch1 (chunk : List Char) : Option (List Char) :=
  match subFindIdx chunk "No Rekening".toList with
  | some i =>
    reSearch (fun s => (expectLit "Kualitas".toList s).bind kualTail)
      (chunk.drop (i + ("No Rekening".toList).length))
  | none => none

/-- Tail of the fallback Kualitas pattern: digits, whitespace-star, a dash,
whitespace-star, one word character, then up to thirty non-newline
characters, all captured. -/
def kual2Tail (u : List Char) : Option (List Char) := do
  let u1 ← expectWs1 u
  let (_, u2) ← spanClass1 (fun c => c.isDigit) u1
  let u3 ← expectChar '-' (skipWs u2)
  match skipWs u3 with
  | c :: cs =>
    if isWordChar c then
      let ln := (cs.takeWhile (fun d => d != '\n')).take 30
      some (u1.take (u1.length - (cs.length - ln.length)))
    else none
  | [] => none

/-- Fallback Kualitas search. -/
def kualSearch2 (chunk : List Char) : Option (List Char) :=
  reSearch (fun s => (expectLit "Kualitas".toList s).bind kual2Tail) chunk

/-- Lookahead of the Jenis Penggunaan pattern: whitespace-plus then one of
the three literals, or a whitespace-star that reaches a newline. -/
def jenisLook (u : List Char) : Bool :=
  (match expectWs1 u with
   | some u2 =>
     "Frekuensi".toList.isPrefixOf u2 || "Nilai".toList.isPrefixOf u2 ||
       "Suku".toList.isPrefixOf u2
   | none => false)
  || (u.takeWhile isWs).contains '\n'

/-- Lazy expansion of the Jenis Penggunaan capture: grow one character at a
time over characters that are neither newlines nor digits, accepting the
shortest capture whose lookahead succeeds. -/
def jenisGo (accRev : List Char) : List Char → Option (List Char)
  | [] => none
  | c :: cs =>
    if c == '\n' || c.isDigit then none
    else if jenisLook cs then some ((c :: accRev).reverse)
    else jenisGo (c :: accRev) cs

/-- Matcher for the Jenis Penggunaan pattern at the head of `s`. -/
def jenisAt (s : List Char) : Option (List Char) := do
  let u ← expectLit "Jenis Penggunaan".toList s
  let u1 ← expectWs1 u
  match u1 with
  | c :: cs => if c.isAlpha then jenisGo [c] cs else none
  | [] => none

/-- Jenis Penggunaan bounded-lookahead search. -/
def jenisSearch (chunk : List Char) : Option (List Char) := reSearch jenisAt chunk

/-- Matcher for the interest-rate pattern at the head of `s`: the label,
whitespace-plus, then the capture - an amount run, a whitespace-star and a
percent sign. -/
def sukuAt (s : List Char) : Option (List Char) := do
  let u ← expectLit "Suku Bunga/Imbalan".toList s
  let u1 ← expectWs1 u
  let (_, u2) ← spanClass1 isAmtChar u1
  let u4 ← expectChar '%' (skipWs u2)
  some (u1.take (u1.length - u4.length))

/-- Interest-rate search. -/
def sukuSearch (chunk : List Char) : Option (List Char) := reSearch sukuAt chunk

/-- re.sub of digit-period-digit to digit-comma-digit: scan left to right;
a replacement consumes all three characters, so scanning resumes after the
second digit (non-overlapping matches). -/
def subDotComma : List Char → List Char
  | [] => []
  | [a] => [a]
  | [a, b] => [a, b]
  | a :: b :: c :: rest =>
    if a.isDigit && b == '.' && c.isDigit then a :: ',' :: c :: subDotComma rest
    else a :: subDotComma (b :: c :: rest)

/-- Matcher for the two date patterns at the head of `s`: the label,
whitespace-plus, then the capture - two digits, whitespace-plus, a word
run, whitespace-plus, four digits. -/
def dateAt (label : List Char) (s : List Char) : Option (List Char) := do
  let u ← expectLit label s
  let u1 ← expectWs1 u
  let u2 ← expectDigits 2 u1
  let u3 ← expectWs1 u2
  let (_, u4) ← spanClass1 isWordChar u3
  let u5 ← expectWs1 u4
  let u6 ← expectDigits 4 u5
  some (u1.take (u1.length - u6.length))

/-- Date search, with the strip the source applies to the capture. -/
def dateSearch (chunk label : List Char) : List Char :=
  match reSearch (dateAt label) chunk with
  | some g => pystrip g
  | none => []

/-- Matcher for the restructuring-frequency pattern at the head of `s`:
the label, whitespace-plus, then a digit run converted by `int`. -/
def frekAt (s : List Char) : Option Nat := do
  let u ← expectLit "Frekuensi Restrukturisasi".toList s
  let u1 ← expectWs1 u
  let (d, _) ← spanClass1 (fun c => c.isDigit) u1
  some (d.foldl (fun acc c => 10 * acc + (c.toNat - '0'.toNat)) 0)

/-- Restructuring-frequency search. -/
def frekSearch (chunk : List Char) : Option Nat := reSearch frekAt chunk

/-- Facility-type assignment loop from the source: scan all headings in
order, keeping the last whose offset lies in the half-open interval from
the previous block start to this block start. -/
def facilityTypeFor (headings : List (Nat × List Char)) (prevEnd blockStart : Nat) :
    Option (List Char) :=
  headings.foldl
    (fun acc h => if prevEnd ≤ h.1 ∧ h.1 < blockStart then some h.2 else acc) none

/-- Jenis Penggunaan value for a default-category block: the
bounded-lookahead regex, else `extract_field` with terminators, exactly as
in the source. -/
def defaultJenis (chunk : List Char) : List Char :=
  match jenisSearch chunk with
  | some g => clean g
  | none => extract_field chunk "Jenis Penggunaan".toList ["Frekuensi".toList, "\n".toList]

/-- One output record of `extract_credit_blocks`. -/
structure FacilityRecord where
  bank : List Char
  jenisPenggunaan : List Char
  nomorLaporan : List Char
  plafonAwal : List Char
  bakiDebet : List Char
  sukuBunga : List Char
  tglAkadAwal : List Char
  tglJatuhTempo : List Char
  kualitas : List Char
  frekuensiRestrukturisasi : Option Nat
deriving DecidableEq, Repr

/-- Per-block data computed by the extraction loop: the previous block's
start (zero for the first), this block's span, and header groups 2 and 3. -/
structure BlockInfo where
  prevEnd : Nat
  start : Nat
  stop : Nat
  g2 : List Char
  g3 : List Char
deriving DecidableEq, Repr

/-- Block spans from the header list: each block runs from its header
start to the next header's start, the last to the document end; the
previous block's start is threaded through (zero initially). -/
def blockInfos (docLen : Nat) : Nat → List (Nat × List Char × List Char) → List BlockInfo
  | _, [] => []
  | prevEnd, (st, g2, g3) :: rest =>
    { prevEnd := prevEnd
      start := st
      stop := match rest with | [] => docLen | (st2, _, _) :: _ => st2
      g2 := g2
      g3 := g3 } :: blockInfos docLen st rest

/-- Text window of one block (the Python slice of the document). -/
def chunkOf (t : List Char) (b : BlockInfo) : List Char :=
  (t.drop b.start).take (b.stop - b.start)

/-- Field assembly for one block, from the source loop body. -/
def mkRecord (t : List Char) (headings : List (Nat × List Char)) (b : BlockInfo) :
    FacilityRecord :=
  let chunk := chunkOf t b
  let ft := facilityTypeFor headings b.prevEnd b.start
  { bank := (split_bank_cabang (pystrip b.g2)).1
    jenisPenggunaan := match ft with | some lab => lab | none => defaultJenis chunk
    nomorLaporan := []
    plafonAwal := extract_rp chunk "Plafon Awal".toList
    bakiDebet := "Rp ".toList ++ b.g3
    sukuBunga := match sukuSearch chunk with | some g => subDotComma (pystrip g) | none => []
    tglAkadAwal := dateSearch chunk "Tanggal Akad Awal".toList
    tglJatuhTempo := dateSearch chunk "Tanggal Jatuh Tempo".toList
    kualitas :=
      match kualSearch1 chunk with
      | some g => clean g
      | none =>
        match kualSearch2 chunk with
        | some g => clean g
        | none => []
    frekuensiRestrukturisasi :=
      match ft with
      | some _ => none
      | none => some ((frekSearch chunk).getD 0) }

/-- extract_credit_blocks from the source: locate all block headers; with
none, return the empty list; otherwise build one record per header in
order over the partitioned spans. -/
def extract_credit_blocks (t : List Char) : List FacilityRecord :=
  let hs := findHeaders t
  if hs.isEmpty then [] else (blockInfos t.length 0 hs).map (mkRecord t (findHeadings t))

/-- Overwrite of the report-identifier field performed by the callers of
`extract_credit_blocks` over the returned records. -/
def fillNomor (nl : List Char) (rs : List FacilityRecord) : List FacilityRecord :=
  rs.map (fun r => { r with nomorLaporan := nl })

/-- POSIX basename: the part after the last slash. -/
def basename (s : List Char) : List Char :=
  (s.reverse.takeWhile (fun c => c != '/')).reverse

/-- Root part of `os.path.splitext` on a slash-free name: cut at the last
dot unless every character before that dot is itself a dot. -/
def splitextRoot (b : List Char) : List Char :=
  match b.reverse.findIdx? (fun c => c == '.') with
  | none => b
  | some j =>
    let d := b.length - 1 - j
    if (b.take d).all (fun c => c == '.') then b else b.take d

/-- auto_output_name from the source: basename without extension; every
character outside word characters and hyphens becomes an underscore;
underscores are stripped from both ends, runs of underscores collapse to
one, and the fixed suffix is appended. -/
def auto_output_name (p : List Char) : List Char :=
  let base := splitextRoot (basename p)
  let subbed := base.map (fun c => if isWordChar c || c == '-' then c else '_')
  let safe := collapseRunsGo (fun c => c == '_') '_' false (stripChar (fun c => c == '_') subbed)
  safe ++ "_slik.xlsx".toList

/-- Occurrence predicate: `pat` occurs case-insensitively in `text` at
offset `i`. -/
def ciOccursAt (text pat : List Char) (i : Nat) : Bool := ciStarts pat (text.drop i)

/-- Earliest cut position over all terminators, per the claimed reading of
`extract_field`: the minimum over the terminators' first case-insensitive
occurrences in the untruncated value (the value length when none occurs). -/
def bestCut (terms : List (List Char)) (v : List Char) : Nat :=
  terms.foldr
    (fun t acc =>
      match ciFindIdx v t with
      | some i => min i acc
      | none => acc) v.length

/-- Claimed behaviour of `extract_field`, written from the claim's words:
capture everything after the first case-insensitive label occurrence to the
end of the window, truncate at the earliest case-insensitive occurrence of
any terminator, collapse whitespace runs and trim. -/
def extract_field_claimed (text label : List Char) (terms : List (List Char)) : List Char :=
  match ciFindIdx text label with
  | none => []
  | some i =>
    let value := text.drop (i + label.length)
    clean (value.take (bestCut terms value))

/-- Specification-side category of a block, written from the claim's
words: among the section headings whose offset lies in the half-open
interval from the previous block start to this block start, the last one
(the one with the largest offset) wins; none means the default category. -/
def maxQualHeading (headings : List (Nat × List Char)) (prevEnd blockStart : Nat) :
    Option (List Char) :=
  ((headings.filter fun h => decide (prevEnd ≤ h.1 ∧ h.1 < blockStart)).getLast?).map Prod.snd

/-- Claimed decimal normalization, written from the claim's words: every
period standing between two digits of the original string becomes a comma,
overlapping occurrences included. -/
def claimDotComma : List Char → List Char
  | [] => []
  | [a] => [a]
  | [a, b] => [a, b]
  | a :: b :: c :: rest =>
    if a.isDigit && b == '.' && c.isDigit then a :: ',' :: claimDotComma (c :: rest)
    else a :: claimDotComma (b :: c :: rest)

/-- Detector for a digit-period-digit-period-digit window, where the
non-overlapping left-to-right substitution and the claimed everywhere
substitution can disagree. -/
def hasTriple : List Char → Bool
  | a :: b :: c :: d :: e :: rest =>
    (a.isDigit && b == '.' && c.isDigit && d == '.' && e.isDigit)
      || hasTriple (b :: c :: d :: e :: rest)
  | _ => false

/-- Claimed derivation of the output name, written from the claim's words:
every non-alphanumeric character becomes an underscore, runs of
underscores collapse to one, and the fixed suffix is appended. -/
def auto_output_name_claimed (p : List Char) : List Char :=
  let base := splitextRoot (basename p)
  let subbed := base.map (fun c => if c.isAlphanum then c else '_')
  collapseRunsGo (fun c => c == '_') '_' false subbed ++ "_slik.xlsx".toList

/-- Amended derivation of the output name, written from the amended claim:
keep word characters and hyphens, replace the other characters by
underscores, keep only the nonempty runs between underscores joined by
single underscores (which strips the ends and collapses runs), and append
the fixed suffix. -/
def auto_output_name_amended (p : List Char) : List Char :=
  let base := splitextRoot (basename p)
  let subbed := base.map (fun c => if isWordChar c || c == '-' then c else '_')
  joinSep '_' (splitRuns (fun c => c == '_') subbed) ++ "_slik.xlsx".toList

/-- Sample document without any block header. -/
def docNoBlocks : List Char := "no headers here at all".toList

/-- Sample document with one section heading followed by one block. -/
def docGaransi : List Char :=
  "Garansi Yang Diberikan\n001 - A B A B Rp 1 02 Mei 2021\nFrekuensi Restrukturisasi 3\n".toList

/-- Sample default-category document exercising every field. -/
def docDefault : List Char :=
  ("001 - BANK ACME BANK ACME KC A Rp 50.000.000 01 Januari 2020\nKualitas 1 - Lancar\n" ++
   "Plafon Awal Rp 60.000.000\nSuku Bunga/Imbalan 10.5 %\nTanggal Akad Awal 02 Mei 2018\n" ++
   "Tanggal Jatuh Tempo 02 Mei 2028\nJenis Penggunaan MODAL KERJA Frekuensi 2\n" ++
   "Frekuensi Restrukturisasi 3\n").toList

/-- Sample document whose interest rate has two adjacent decimal periods. -/
def docSuku : List Char :=
  "001 - A B A B Rp 1 02 Mei 2021\nSuku Bunga/Imbalan 1.2.3 %\n".toList

/-- Sample document whose restructuring-frequency label is present without
a following number. -/
def docFrek : List Char :=
  "001 - A B A B Rp 1 02 Mei 2021\nFrekuensi Restrukturisasi tiga\n".toList

/-- Sample document with three blocks and two section headings. -/
def docThree : List Char :=
  ("001 - X Y X Y Rp 1 02 Mei 2021\nSurat Berharga\n002 - Q R Q R S Rp 2 03 Jun 2022\n" ++
   "Fasilitas Lain\n003 - M N M N O Rp 3 04 Jul 2023\n").toList

/-- Record extracted from `docSuku`. -/
def recSuku : FacilityRecord :=
  ⟨"A B A B".toList, [], [], [], "Rp 1".toList, "1,2.3 %".toList, [], [], [], some 0⟩

/-- Record extracted from `docFrek`. -/
def recFrek : FacilityRecord :=
  ⟨"A B A B".toList, [], [], [], "Rp 1".toList, [], [], [], [], some 0⟩

/-- Record extracted from `docGaransi`. -/
def recGaransi : FacilityRecord :=
  ⟨"A B A B".toList, "Garansi Yang Diberikan".toList, [], [], "Rp 1".toList, [], [], [], [],
   none⟩

/-- Record extracted from `docDefault`. -/
def recDefault : FacilityRecord :=
  ⟨"BANK ACME".toList, "MODAL KERJA".toList, [], "Rp 60.000.000".toList,
   "Rp 50.000.000".toList, "10,5 %".toList, "02 Mei 2018".toList, "02 Mei 2028".toList,
   "1 - Lancar".toList, some 3⟩

/-- Block span data of the single block of `docGaransi`. -/
def biGaransi : BlockInfo := ⟨0, 23, 82, "A B A B".toList, "1".toList⟩

/-- Block span data of the single block of `docDefault`. -/
def biDefault : BlockInfo :=
  ⟨0, 0, 264, "BANK ACME BANK ACME KC A".toList, "50.000.000".toList⟩

/-! ## Helper lemmas -/

theorem extract_eq_map (t : List Char) :
    extract_credit_blocks t =
      (blockInfos t.length 0 (findHeaders t)).map (mkRecord t (findHeadings t)) := by
  unfold extract_credit_blocks
  by_cases h : (findHeaders t).isEmpty
  · have h0 : findHeaders t = [] := List.isEmpty_iff_eq_nil.mp h
    simp [h, h0, blockInfos]
  · simp [h]

/-! ## Claim C5 -/

/-- Claim C5: for every document text in which the block-header pattern has
zero matches, `extract_credit_blocks` returns an empty list rather than
raising an error (the embedding is a total function, and the zero-match
branch returns the empty list). -/
theorem c5_no_headers_empty (t : List Char) (h : findHeaders t = []) :
    extract_credit_blocks t = [] := by
  simp [extract_credit_blocks, h]

/-- Witness for C5 at a concrete headerless document. -/
theorem c5_witness :
    findHeaders docNoBlocks = [] ∧ extract_credit_blocks docNoBlocks = [] :=
  ⟨by decide, c5_no_headers_empty docNoBlocks (by decide)⟩

/-! ## Claim C7 -/

/-- Claim C7: `split_bank_cabang` is total over all inputs (it is embedded
as a total Lean function built from total pieces, and the source performs
only splitting, slicing and searching, none of which raises), and when
neither the prefix-doubling loop nor the branch-marker fallback fires it
returns the whole input paired with the empty string. -/
theorem c7_total_fallback (s : List Char)
    (h1 : firstHit (sbcCheck s (pysplit s)) (List.range' 2 ((pysplit s).length + 1 - 2)) = none)
    (h2 : findMarker s = none) :
    split_bank_cabang s = (s, []) := by
  have h1' : firstHit (sbcCheck s (pysplit s))
      (List.range' 2 ((pysplit s).length - 1)) = none := by
    have e : (pysplit s).length + 1 - 2 = (pysplit s).length - 1 := by omega
    rwa [e] at h1
  simp [split_bank_cabang, h1', h2]

/-- Witness for C7 at a concrete input where neither heuristic fires. -/
theorem c7_witness :
    firstHit (sbcCheck "HELLO WORLD".toList (pysplit "HELLO WORLD".toList))
        (List.range' 2 ((pysplit "HELLO WORLD".toList).length + 1 - 2)) = none ∧
      split_bank_cabang "HELLO WORLD".toList = ("HELLO WORLD".toList, []) :=
  ⟨by decide, c7_total_fallback "HELLO WORLD".toList (by decide) (by decide)⟩

/-! ## Claim C10 -/

/-- Claim C10: every record returned by `extract_credit_blocks` carries an
empty report-identifier field, and the callers' overwrite pass is what
installs the document-level identifier afterwards. -/
theorem c10_report_identifier_blank :
    (∀ t : List Char, ∀ r ∈ extract_credit_blocks t, r.nomorLaporan = []) ∧
    (∀ (nl : List Char) (rs : List FacilityRecord), ∀ r ∈ fillNomor nl rs,
      r.nomorLaporan = nl) := by
  constructor
  · intro t r hr
    rw [extract_eq_map] at hr
    obtain ⟨b, _, rfl⟩ := List.mem_map.mp hr
    rfl
  · intro nl rs r hr
    obtain ⟨x, _, rfl⟩ := List.mem_map.mp hr
    rfl

/-- Witness for C10 at a concrete document and record. -/
theorem c10_witness :
    recSuku ∈ extract_credit_blocks docSuku ∧ recSuku.nomorLaporan = [] :=
  ⟨by decide, c10_report_identifier_blank.1 docSuku recSuku (by decide)⟩

/-! ## Claim C4, counterexample -/

/-- Counterexample to claim C4 as stated: with the one-token X equal to
BCA and Y equal to SUDIRMAN, the input X-space-X-space-Y is returned
unsplit with an empty branch, not as the pair (X, Y); the doubling loop
starts at two-word candidates and in the fallback no branch marker occurs. -/
theorem c4_counterexample :
    ("BCA BCA SUDIRMAN".toList : List Char) =
        "BCA".toList ++ [' '] ++ "BCA".toList ++ [' '] ++ "SUDIRMAN".toList ∧
      split_bank_cabang "BCA BCA SUDIRMAN".toList = ("BCA BCA SUDIRMAN".toList, []) ∧
      split_bank_cabang "BCA BCA SUDIRMAN".toList ≠ ("BCA".toList, "SUDIRMAN".toList) := by
  refine ⟨by decide, by decide, by decide⟩

/-! ## Claim C3, counterexample -/

/-- Counterexample to claim C3 as stated: the capture stops at the end of
the line, not the end of the window, and terminators truncate sequentially
in list order on the already-truncated value, not at the globally earliest
occurrence (truncation can destroy a straddling earlier occurrence). -/
theorem c3_counterexample :
    extract_field "Jenis Penggunaan MODAL\nKERJA".toList "Jenis Penggunaan".toList []
        = "MODAL".toList ∧
      extract_field_claimed "Jenis Penggunaan MODAL\nKERJA".toList
          "Jenis Penggunaan".toList [] = "MODAL KERJA".toList ∧
      extract_field "L abcd efg".toList "L".toList ["cd".toList, "bc".toList]
        = "ab".toList ∧
      extract_field_claimed "L abcd efg".toList "L".toList ["cd".toList, "bc".toList]
        = "a".toList := by
  refine ⟨by decide, by decide, by decide, by decide⟩

/-! ## Claim C9, counterexample -/

/-- Counterexample to claim C9 as stated: hyphens are non-alphanumeric but
are kept, and leading or trailing underscores are stripped before the
suffix is appended, so the claimed derivation disagrees with the code. -/
theorem c9_counterexample :
    auto_output_name "a-b.pdf".toList = "a-b_slik.xlsx".toList ∧
      auto_output_name_claimed "a-b.pdf".toList = "a_b_slik.xlsx".toList ∧
      auto_output_name "a!.pdf".toList = "a_slik.xlsx".toList ∧
      auto_output_name_claimed "a!.pdf".toList = "a__slik.xlsx".toList := by
  refine ⟨by decide, by decide, by decide, by decide⟩

/-! ## Claim C8, counterexample -/

/-- Counterexample to claim C8 as stated: on the matched rate text with two
adjacent decimal periods the substitution is left-to-right and
non-overlapping, so the second period stays a period, while the claim
demands every digit-surrounded period become a comma. -/
theorem c8_counterexample :
    extract_credit_blocks docSuku = [recSuku] ∧
      recSuku.sukuBunga = "1,2.3 %".toList ∧
      claimDotComma "1.2.3 %".toList = "1,2,3 %".toList ∧
      recSuku.sukuBunga ≠ claimDotComma "1.2.3 %".toList := by
  refine ⟨by decide, by decide, by decide, by decide⟩

/-! ## Claim C6, counterexample -/

/-- Counterexample to claim C6 as stated: in this default-category block
the restructuring-frequency label is present in the block text but is not
followed by digits, so there is no parsed value, and the field is the
default zero even though the label is not absent. -/
theorem c6_counterexample :
    extract_credit_blocks docFrek = [recFrek] ∧
      (blockInfos docFrek.length 0 (findHeaders docFrek)).map (chunkOf docFrek)
        = [docFrek] ∧
      (subFindIdx docFrek "Frekuensi Restrukturisasi".toList).isSome = true ∧
      frekSearch docFrek = none ∧
      recFrek.frekuensiRestrukturisasi = some 0 := by
  refine ⟨by decide, by decide, by decide, by decide, by decide⟩

/-! ## finditer lemmas -/

theorem reFinditerGo_nil {α : Type} (m : Bool → List Char → Option (Nat × α))
    (fuel pos : Nat) (b : Bool) : reFinditerGo m fuel pos b [] = [] := by
  cases fuel <;> simp [reFinditerGo]

theorem reFinditerGo_bounds {α : Type} (m : Bool → List Char → Option (Nat × α)) :
    ∀ (fuel pos : Nat) (b : Bool) (s : List Char) (q : Nat × α),
      q ∈ reFinditerGo m fuel pos b s → pos ≤ q.1 ∧ q.1 < pos + s.length := by
  intro fuel
  induction fuel with
  | zero => intro pos b s q hq; simp [reFinditerGo] at hq
  | succ n ih =>
    intro pos b s q hq
    cases s with
    | nil => simp [reFinditerGo] at hq
    | cons c cs =>
      rw [reFinditerGo] at hq
      cases hm : m b (c :: cs) with
      | none =>
        rw [hm] at hq
        have h := ih (pos + 1) (c == '\n') cs q hq
        simp only [List.length_cons]
        omega
      | some la =>
        obtain ⟨len, a⟩ := la
        rw [hm] at hq
        simp only at hq
        rcases List.mem_cons.mp hq with rfl | hq2
        · simp only [List.length_cons]
          omega
        · by_cases hk : max len 1 ≤ (c :: cs).length
          · have h := ih (pos + max len 1) _ _ q hq2
            have hd : ((c :: cs).drop (max len 1)).length = (c :: cs).length - max len 1 :=
              List.length_drop _ _
            have h1 : 1 ≤ max len 1 := le_max_right _ _
            omega
          · have hnil : (c :: cs).drop (max len 1) = [] :=
              List.drop_eq_nil_of_le (by omega)
            rw [hnil, reFinditerGo_nil] at hq2
            cases hq2

theorem reFinditerGo_pairwise {α : Type} (m : Bool → List Char → Option (Nat × α)) :
    ∀ (fuel pos : Nat) (b : Bool) (s : List Char),
      (reFinditerGo m fuel pos b s).Pairwise (fun x y => x.1 < y.1) := by
  intro fuel
  induction fuel with
  | zero => intro pos b s; simp [reFinditerGo]
  | succ n ih =>
    intro pos b s
    cases s with
    | nil => simp [reFinditerGo]
    | cons c cs =>
      rw [reFinditerGo]
      cases hm : m b (c :: cs) with
      | none => exact ih _ _ _
      | some la =>
        obtain ⟨len, a⟩ := la
        simp only
        refine List.pairwise_cons.mpr ⟨?_, ih _ _ _⟩
        intro q hq
        have h := (reFinditerGo_bounds m n _ _ _ q hq).1
        have h1 : 1 ≤ max len 1 := le_max_right _ _
        omega

theorem findHeaders_sorted (t : List Char) :
    (findHeaders t).Pairwise (fun x y => x.1 < y.1) :=
  reFinditerGo_pairwise _ _ _ _ _

theorem findHeadings_sorted (t : List Char) :
    (findHeadings t).Pairwise (fun x y => x.1 < y.1) :=
  reFinditerGo_pairwise _ _ _ _ _

theorem findHeaders_lt_length (t : List Char) :
    ∀ q ∈ findHeaders t, q.1 < t.length := by
  intro q hq
  have h := reFinditerGo_bounds (fun _ s => matchHeader s) t.length 0 true t q hq
  omega

/-! ## blockInfos lemmas -/

theorem blockInfos_length (docLen : Nat) :
    ∀ (hs : List (Nat × List Char × List Char)) (p : Nat),
      (blockInfos docLen p hs).length = hs.length := by
  intro hs
  induction hs with
  | nil => intro p; rfl
  | cons h rest ih =>
    intro p
    obtain ⟨st, g2, g3⟩ := h
    simp [blockInfos, ih st]

theorem blockInfos_map_start (docLen : Nat) :
    ∀ (hs : List (Nat × List Char × List Char)) (p : Nat),
      (blockInfos docLen p hs).map (fun b => b.start) = hs.map (fun h => h.1) := by
  intro hs
  induction hs with
  | nil => intro p; rfl
  | cons h rest ih =>
    intro p
    obtain ⟨st, g2, g3⟩ := h
    simp [blockInfos, ih st]

theorem blockInfos_getElem? (docLen : Nat) :
    ∀ (hs : List (Nat × List Char × List Char)) (p i : Nat) (b : BlockInfo),
      (blockInfos docLen p hs)[i]? = some b →
      ∃ h, hs[i]? = some h ∧ b.start = h.1 ∧ b.g2 = h.2.1 ∧ b.g3 = h.2.2 ∧
        b.prevEnd = (if i = 0 then p else (hs.map (fun x => x.1)).getD (i - 1) 0) ∧
        b.stop = (hs.map (fun x => x.1)).getD (i + 1) docLen := by
  intro hs
  induction hs with
  | nil => intro p i b hb; simp [blockInfos] at hb
  | cons h rest ih =>
    intro p i b hb
    obtain ⟨st, g2, g3⟩ := h
    cases i with
    | zero =>
      simp only [blockInfos, List.getElem?_cons_zero, Option.some_inj] at hb
      subst hb
      refine ⟨(st, g2, g3), by simp, rfl, rfl, rfl, by simp, ?_⟩
      cases rest with
      | nil => simp
      | cons h2 rest2 =>
        obtain ⟨st2, g22, g32⟩ := h2
        simp
    | succ j =>
      simp only [blockInfos, List.getElem?_cons_succ] at hb
      obtain ⟨h2, hh2, hstart, hg2, hg3, hprev, hstop⟩ := ih st j b hb
      refine ⟨h2, by simpa using hh2, hstart, hg2, hg3, ?_, ?_⟩
      · cases j with
        | zero => simpa using hprev
        | succ k =>
          simp only [Nat.succ_sub_one] at hprev ⊢
          simpa [List.getD_cons_succ] using hprev
      · simpa [List.getD_cons_succ] using hstop

theorem blockInfos_chain (docLen : Nat) :
    ∀ (hs : List (Nat × List Char × List Char)) (p : Nat),
      List.Chain' (fun a b => a.stop = b.start) (blockInfos docLen p hs) := by
  intro hs
  induction hs with
  | nil => intro p; simp [blockInfos]
  | cons h rest ih =>
    intro p
    obtain ⟨st, g2, g3⟩ := h
    cases rest with
    | nil => simp [blockInfos]
    | cons h2 rest2 =>
      obtain ⟨st2, g22, g32⟩ := h2
      have hih := ih st
      simp only [blockInfos] at hih ⊢
      exact List.chain'_cons.mpr ⟨rfl, hih⟩

theorem blockInfos_getLast_stop (docLen : Nat) :
    ∀ (hs : List (Nat × List Char × List Char)) (p : Nat), hs ≠ [] →
      ((blockInfos docLen p hs).getLast?).map (fun b => b.stop) = some docLen := by
  intro hs
  induction hs with
  | nil => intro p hne; exact absurd rfl hne
  | cons h rest ih =>
    intro p _
    obtain ⟨st, g2, g3⟩ := h
    cases rest with
    | nil => simp [blockInfos]
    | cons h2 rest2 =>
      obtain ⟨st2, g22, g32⟩ := h2
      have hih := ih st (by simp)
      simp only [blockInfos] at hih ⊢
      rw [List.getLast?_cons_cons]
      exact hih

theorem blockInfos_start_lt_stop (docLen : Nat) :
    ∀ (hs : List (Nat × List Char × List Char)) (p : Nat),
      hs.Pairwise (fun x y => x.1 < y.1) → (∀ q ∈ hs, q.1 < docLen) →
      ∀ b ∈ blockInfos docLen p hs, b.start < b.stop := by
  intro hs
  induction hs with
  | nil => intro p _ _ b hb; simp [blockInfos] at hb
  | cons h rest ih =>
    intro p hp hlt b hb
    obtain ⟨st, g2, g3⟩ := h
    simp only [blockInfos] at hb
    rcases List.mem_cons.mp hb with rfl | hb2
    · simp only
      cases rest with
      | nil => exact hlt (st, g2, g3) (by simp)
      | cons h2 rest2 =>
        obtain ⟨st2, g22, g32⟩ := h2
        exact (List.pairwise_cons.mp hp).1 (st2, g22, g32) (by simp)
    · exact ih st (List.pairwise_cons.mp hp).2
        (fun q hq => hlt q (List.mem_cons_of_mem _ hq)) b hb2

/-! ## category assignment lemmas -/

theorem facilityTypeFor_eq_maxQual (H : List (Nat × List Char)) (p st : Nat) :
    facilityTypeFor H p st = maxQualHeading H p st := by
  induction H using List.reverseRecOn with
  | nil => rfl
  | append_singleton l x ih =>
    unfold facilityTypeFor maxQualHeading
    unfold facilityTypeFor maxQualHeading at ih
    rw [List.foldl_append, List.filter_append]
    simp only [List.foldl_cons, List.foldl_nil]
    by_cases hx : p ≤ x.1 ∧ x.1 < st
    · simp [hx, List.getLast?_concat]
    · simp [hx, ih]

theorem getLast?_max_of_sorted {β : Type} :
    ∀ (l : List (Nat × β)), l.Pairwise (fun x y => x.1 < y.1) →
      ∀ a ∈ l, ∀ g, l.getLast? = some g → a.1 ≤ g.1 := by
  intro l
  induction l with
  | nil => intro _ a ha; cases ha
  | cons x xs ih =>
    intro hp a ha g hg
    obtain ⟨hx, hxs⟩ := List.pairwise_cons.mp hp
    cases xs with
    | nil =>
      simp at ha hg
      subst ha
      subst hg
      exact le_rfl
    | cons y ys =>
      rw [List.getLast?_cons_cons] at hg
      rcases List.mem_cons.mp ha with rfl | ha2
      · obtain ⟨hne, heq⟩ := List.mem_getLast?_eq_getLast (Option.mem_def.mpr hg)
        exact le_of_lt (hx g (heq ▸ List.getLast_mem hne))
      · exact ih hxs a ha2 g hg

/-! ## Claim C1 -/

/-- Claim C1: for every document and every block produced by
`extract_credit_blocks`, the assigned category field equals the label of
the section heading with the largest offset in the half-open interval from
the previous header start (zero for the first block) to this header start;
the qualifying heading kept is the last in the position-sorted finditer
list, whose offset is maximal among all qualifying headings; with no
qualifying heading the category falls back to the default Jenis Penggunaan
extraction from the block window. -/
theorem c1_category_assignment (t : List Char) (i : Nat) (b : BlockInfo)
    (hb : (blockInfos t.length 0 (findHeaders t))[i]? = some b) :
    ∃ r, (extract_credit_blocks t)[i]? = some r ∧
      b.prevEnd = (if i = 0 then 0 else ((findHeaders t).map (fun h => h.1)).getD (i - 1) 0) ∧
      (∃ h, (findHeaders t)[i]? = some h ∧ b.start = h.1) ∧
      r.jenisPenggunaan =
        (match maxQualHeading (findHeadings t) b.prevEnd b.start with
         | some lab => lab
         | none => defaultJenis (chunkOf t b)) ∧
      (∀ x ∈ (findHeadings t).filter (fun h => decide (b.prevEnd ≤ h.1 ∧ h.1 < b.start)),
        ∀ g, ((findHeadings t).filter
            (fun h => decide (b.prevEnd ≤ h.1 ∧ h.1 < b.start))).getLast? = some g →
          x.1 ≤ g.1) ∧
      ((findHeadings t).filter (fun h => decide (b.prevEnd ≤ h.1 ∧ h.1 < b.start)) = [] →
        maxQualHeading (findHeadings t) b.prevEnd b.start = none) := by
  obtain ⟨h, hh, hstart, hg2, hg3, hprev, hstop⟩ :=
    blockInfos_getElem? t.length (findHeaders t) 0 i b hb
  refine ⟨mkRecord t (findHeadings t) b, ?_, hprev, ⟨h, hh, hstart⟩, ?_, ?_, ?_⟩
  · rw [extract_eq_map, List.getElem?_map, hb]
    rfl
  · have hj : (mkRecord t (findHeadings t) b).jenisPenggunaan =
        (match facilityTypeFor (findHeadings t) b.prevEnd b.start with
         | some lab => lab
         | none => defaultJenis (chunkOf t b)) := rfl
    rw [hj, facilityTypeFor_eq_maxQual]
  · intro x hx g hg
    exact getLast?_max_of_sorted _ ((findHeadings_sorted t).filter _) x hx g hg
  · intro hemp
    unfold maxQualHeading
    rw [hemp]
    rfl

/-- Witness for C1 at a concrete document whose single block is preceded
by a section heading. -/
theorem c1_witness :
    ∃ r, (extract_credit_blocks docGaransi)[0]? = some r ∧
      r.jenisPenggunaan =
        (match maxQualHeading (findHeadings docGaransi) biGaransi.prevEnd biGaransi.start with
         | some lab => lab
         | none => defaultJenis (chunkOf docGaransi biGaransi)) := by
  obtain ⟨r, h1, _, _, h4, _, _⟩ := c1_category_assignment docGaransi 0 biGaransi (by decide)
  exact ⟨r, h1, h4⟩

/-! ## Claim C2 -/

/-- Claim C2: with at least one block header, `extract_credit_blocks`
returns exactly one record per header, in header order (the record list is
the map of the block builder over the span list, whose starts are exactly
the header offsets in order); the spans are contiguous (each stop equals
the next start), strictly increasing, nonempty, and the last stop is the
document end - so they partition the document from the first header start
to the end. -/
theorem c2_partition (t : List Char) (hne : findHeaders t ≠ []) :
    (extract_credit_blocks t).length = (findHeaders t).length ∧
    extract_credit_blocks t =
      (blockInfos t.length 0 (findHeaders t)).map (mkRecord t (findHeadings t)) ∧
    (blockInfos t.length 0 (findHeaders t)).map (fun b => b.start) =
      (findHeaders t).map (fun h => h.1) ∧
    List.Chain' (fun a b => a.stop = b.start) (blockInfos t.length 0 (findHeaders t)) ∧
    ((blockInfos t.length 0 (findHeaders t)).getLast?).map (fun b => b.stop) =
      some t.length ∧
    (blockInfos t.length 0 (findHeaders t)).Pairwise (fun a b => a.start < b.start) ∧
    ∀ b ∈ blockInfos t.length 0 (findHeaders t), b.start < b.stop := by
  refine ⟨?_, extract_eq_map t, blockInfos_map_start _ _ _, blockInfos_chain _ _ _,
    blockInfos_getLast_stop _ _ _ hne, ?_, ?_⟩
  · rw [extract_eq_map, List.length_map, blockInfos_length]
  · have h1 : ((findHeaders t).map (fun h => h.1)).Pairwise (fun a b => a < b) :=
      List.pairwise_map.mpr (findHeaders_sorted t)
    rw [← blockInfos_map_start t.length (findHeaders t) 0] at h1
    exact List.pairwise_map.mp h1
  · exact blockInfos_start_lt_stop _ _ _ (findHeaders_sorted t) (findHeaders_lt_length t)

/-- Witness for C2 at a concrete three-block document. -/
theorem c2_witness :
    (extract_credit_blocks docThree).length = (findHeaders docThree).length ∧
    ((blockInfos docThree.length 0 (findHeaders docThree)).getLast?).map (fun b => b.stop) =
      some docThree.length := by
  obtain ⟨h1, _, _, _, h5, _, _⟩ := c2_partition docThree (by decide)
  exact ⟨h1, h5⟩

/-! ## Claim C6, amended theorem -/

/-- Claim C6 (amended): for every block, the restructuring-frequency field
is null exactly when a special facility category was assigned; for
default-category blocks it is a non-null natural number, equal to the
parsed value when the frequency pattern (label, whitespace, digits)
matches in the block window and zero when that pattern does not match -
including when the label text is present without a following number. -/
theorem c6_amended_frequency (t : List Char) (i : Nat) (b : BlockInfo)
    (hb : (blockInfos t.length 0 (findHeaders t))[i]? = some b) :
    ∃ r, (extract_credit_blocks t)[i]? = some r ∧
      ((facilityTypeFor (findHeadings t) b.prevEnd b.start).isSome = true →
        r.frekuensiRestrukturisasi = none) ∧
      (facilityTypeFor (findHeadings t) b.prevEnd b.start = none →
        r.frekuensiRestrukturisasi = some ((frekSearch (chunkOf t b)).getD 0) ∧
        (∀ n, frekSearch (chunkOf t b) = some n →
          r.frekuensiRestrukturisasi = some n) ∧
        (frekSearch (chunkOf t b) = none → r.frekuensiRestrukturisasi = some 0)) := by
  have hfr : (mkRecord t (findHeadings t) b).frekuensiRestrukturisasi =
      (match facilityTypeFor (findHeadings t) b.prevEnd b.start with
       | some _ => none
       | none => some ((frekSearch (chunkOf t b)).getD 0)) := rfl
  refine ⟨mkRecord t (findHeadings t) b, ?_, ?_, ?_⟩
  · rw [extract_eq_map, List.getElem?_map, hb]
    rfl
  · intro hsome
    obtain ⟨lab, hlab⟩ := Option.isSome_iff_exists.mp hsome
    rw [hfr, hlab]
  · intro hnone
    rw [hfr, hnone]
    refine ⟨rfl, fun n hn => by rw [hn]; rfl, fun hn => by rw [hn]; rfl⟩

/-- Witness for C6 at a concrete default-category document with a parsed
frequency of three. -/
theorem c6_witness :
    ∃ r, (extract_credit_blocks docDefault)[0]? = some r ∧
      r.frekuensiRestrukturisasi = some ((frekSearch (chunkOf docDefault biDefault)).getD 0) := by
  obtain ⟨r, h1, _, h3⟩ := c6_amended_frequency docDefault 0 biDefault (by decide)
  exact ⟨r, h1, (h3 (by decide)).1⟩

theorem hasTriple_tail (c : Char) (l : List Char) (h : hasTriple (c :: l) = false) :
    hasTriple l = false := by
  match l with
  | [] => rfl
  | [a] => rfl
  | [a, b] => rfl
  | [a, b, d] => rfl
  | a :: b :: d :: e :: tl =>
    rw [hasTriple] at h
    exact (Bool.or_eq_false_iff.mp h).2

theorem subDotComma_eq_claimGo :
    ∀ (n : Nat) (s : List Char), s.length ≤ n → hasTriple s = false →
      subDotComma s = claimDotComma s := by
  intro n
  induction n with
  | zero =>
    intro s hl _
    rw [List.eq_nil_of_length_eq_zero (Nat.le_zero.mp hl)]
    rfl
  | succ n ih =>
    intro s hl htr
    match s with
    | [] => rfl
    | [a] => rfl
    | [a, b] => rfl
    | a :: b :: c :: rest =>
      have ht1 : hasTriple (b :: c :: rest) = false := hasTriple_tail _ _ htr
      have ht2 : hasTriple (c :: rest) = false := hasTriple_tail _ _ ht1
      have ht3 : hasTriple rest = false := hasTriple_tail _ _ ht2
      rw [subDotComma, claimDotComma]
      by_cases hd : a.isDigit && b == '.' && c.isDigit
      · rw [if_pos hd, if_pos hd]
        have key : claimDotComma (c :: rest) = c :: subDotComma rest := by
          match rest with
          | [] => rfl
          | [r1] => rfl
          | r1 :: r2 :: rest2 =>
            by_cases hd2 : c.isDigit && r1 == '.' && r2.isDigit
            · exfalso
              have : hasTriple (a :: b :: c :: r1 :: r2 :: rest2) = true := by
                rw [hasTriple]
                simp only [Bool.and_eq_true, beq_iff_eq] at hd hd2
                simp [hd.1.1, hd.1.2, hd.2, hd2.1.2, hd2.2]
              rw [this] at htr
              cases htr
            · have hrec := ih (r1 :: r2 :: rest2)
                (by simp only [List.length_cons] at hl ⊢; omega) ht3
              rw [claimDotComma, if_neg hd2, ← hrec]
        rw [key]
      · rw [if_neg hd, if_neg hd]
        have hrec := ih (b :: c :: rest)
          (by simp only [List.length_cons] at hl ⊢; omega) ht1
        rw [hrec]

/-- Equality of the non-overlapping substitution with the claimed
everywhere substitution on strings without adjacent replaceable periods. -/
theorem subDotComma_eq_claim (s : List Char) (h : hasTriple s = false) :
    subDotComma s = claimDotComma s :=
  subDotComma_eq_claimGo s.length s le_rfl h

/-! ## Claim C8, amended theorem -/

/-- Claim C8 (amended): for every block, the interest-rate field is the
percentage capture after the label with digit-period-digit replaced by
digit-comma-digit in a single left-to-right non-overlapping pass (so when
no two replaceable periods share a digit the result agrees with replacing
every digit-surrounded period), and the empty string when the pattern does
not match. -/
theorem c8_amended_rate (t : List Char) (i : Nat) (b : BlockInfo)
    (hb : (blockInfos t.length 0 (findHeaders t))[i]? = some b) :
    ∃ r, (extract_credit_blocks t)[i]? = some r ∧
      r.sukuBunga =
        (match sukuSearch (chunkOf t b) with
         | some g => subDotComma (pystrip g)
         | none => []) ∧
      ∀ s : List Char, hasTriple s = false → subDotComma s = claimDotComma s := by
  refine ⟨mkRecord t (findHeadings t) b, ?_, rfl, subDotComma_eq_claim⟩
  rw [extract_eq_map, List.getElem?_map, hb]
  rfl

/-- Witness for C8 at a concrete document with a simple decimal rate. -/
theorem c8_witness :
    ∃ r, (extract_credit_blocks docDefault)[0]? = some r ∧
      r.sukuBunga =
        (match sukuSearch (chunkOf docDefault biDefault) with
         | some g => subDotComma (pystrip g)
         | none => []) := by
  obtain ⟨r, h1, h2, _⟩ := c8_amended_rate docDefault 0 biDefault (by decide)
  exact ⟨r, h1, h2⟩

/-! ## Claim C3, amended theorem -/

theorem ciFindIdxGo_spec (pat : List Char) :
    ∀ (s : List Char) (base : Nat),
      (ciFindIdxGo pat base s = none → ∀ k, ciStarts pat (s.drop k) = false) ∧
      (∀ r, ciFindIdxGo pat base s = some r → base ≤ r ∧
        ciStarts pat (s.drop (r - base)) = true ∧
        ∀ k < r - base, ciStarts pat (s.drop k) = false) := by
  intro s
  induction s with
  | nil =>
    intro base
    constructor
    · intro hn k
      rw [ciFindIdxGo] at hn
      by_cases hc : ciStarts pat []
      · rw [if_pos hc] at hn; cases hn
      · simpa [List.drop_nil] using Bool.eq_false_iff.mpr hc
    · intro r hr
      rw [ciFindIdxGo] at hr
      by_cases hc : ciStarts pat []
      · rw [if_pos hc] at hr
        injection hr with hr
        subst hr
        refine ⟨le_rfl, by simpa using hc, ?_⟩
        intro k hk
        omega
      · rw [if_neg hc] at hr
        cases hr
  | cons c cs ih =>
    intro base
    have IH := ih (base + 1)
    constructor
    · intro hn k
      rw [ciFindIdxGo] at hn
      by_cases hc : ciStarts pat (c :: cs)
      · rw [if_pos hc] at hn; cases hn
      · rw [if_neg hc] at hn
        cases k with
        | zero => simpa using Bool.eq_false_iff.mpr hc
        | succ j => exact IH.1 hn j
    · intro r hr
      rw [ciFindIdxGo] at hr
      by_cases hc : ciStarts pat (c :: cs)
      · rw [if_pos hc] at hr
        injection hr with hr
        subst hr
        refine ⟨le_rfl, by simpa using hc, ?_⟩
        intro k hk
        omega
      · rw [if_neg hc] at hr
        obtain ⟨h1, h2, h3⟩ := IH.2 r hr
        refine ⟨by omega, ?_, ?_⟩
        · have he : r - base = (r - (base + 1)) + 1 := by omega
          rw [he]
          exact h2
        · intro k hk
          cases k with
          | zero => simpa using Bool.eq_false_iff.mpr hc
          | succ j => exact h3 j (by omega)

/-- Claim C3 (amended): `extract_field` is empty when the label never
occurs case-insensitively; otherwise, with the first case-insensitive
occurrence at offset i, the value is the text after the label and the
maximal following whitespace run up to the next newline (not the end of
the window), stripped, truncated by processing the terminators in list
order each at its first case-insensitive occurrence in the current value,
and whitespace-collapsed and trimmed. -/
theorem c3_amended_field (text label : List Char) (terms : List (List Char)) :
    ((∀ j, ciOccursAt text label j = false) → extract_field text label terms = []) ∧
    (∀ i, ciOccursAt text label i = true → (∀ j < i, ciOccursAt text label j = false) →
      extract_field text label terms =
        clean (truncSeq terms (pystrip
          (((text.drop (i + label.length)).dropWhile isWs).takeWhile
            (fun c => c != '\n'))))) := by
  constructor
  · intro hno
    unfold extract_field
    cases hf : ciFindIdx text label with
    | none => rfl
    | some r =>
      unfold ciFindIdx at hf
      obtain ⟨_, h2, _⟩ := (ciFindIdxGo_spec label text 0).2 r hf
      rw [Nat.sub_zero] at h2
      have hn := hno r
      unfold ciOccursAt at hn
      rw [hn] at h2
      cases h2
  · intro i hocc hmin
    have hf : ciFindIdx text label = some i := by
      cases hf : ciFindIdx text label with
      | none =>
        unfold ciFindIdx at hf
        have h := (ciFindIdxGo_spec label text 0).1 hf i
        unfold ciOccursAt at hocc
        rw [hocc] at h
        cases h
      | some r =>
        unfold ciFindIdx at hf
        obtain ⟨_, h2, h3⟩ := (ciFindIdxGo_spec label text 0).2 r hf
        rw [Nat.sub_zero] at h2
        have hri : r = i := by
          rcases lt_trichotomy r i with h | h | h
          · have hm := hmin r h
            unfold ciOccursAt at hm
            rw [hm] at h2
            cases h2
          · exact h
          · have hm := h3 i (by omega)
            unfold ciOccursAt at hocc
            rw [hocc] at hm
            cases hm
        rw [hri]
    unfold extract_field
    rw [hf]

/-- Witness for C3 at a concrete window whose label occurs first at
offset two. -/
theorem c3_witness :
    ciOccursAt "x AB: hi".toList "ab:".toList 2 = true ∧
    extract_field "x AB: hi".toList "ab:".toList [] =
      clean (truncSeq [] (pystrip
        ((("x AB: hi".toList.drop (2 + "ab:".toList.length)).dropWhile isWs).takeWhile
          (fun c => c != '\n')))) :=
  ⟨by decide, (c3_amended_field "x AB: hi".toList "ab:".toList []).2 2 (by decide) (by decide)⟩

/-! ## split and join toolbox -/

theorem dropWhileAppend (p : Char → Bool) :
    ∀ (u v : List Char), (u ++ v).dropWhile p =
      if (u.dropWhile p).isEmpty then v.dropWhile p else u.dropWhile p ++ v := by
  intro u
  induction u with
  | nil => intro v; simp
  | cons c cs ih =>
    intro v
    by_cases hc : p c
    · simp only [List.cons_append, List.dropWhile_cons, hc, if_true]
      exact ih v
    · simp [List.dropWhile_cons, hc]

theorem dropWhile_eq_self_of_all (p : Char → Bool) (l : List Char)
    (h : ∀ d ∈ l, p d = false) : l.dropWhile p = l := by
  cases l with
  | nil => rfl
  | cons c cs => simp [List.dropWhile_cons, h c (by simp)]

theorem splitRunsGo_word (p : Char → Bool) :
    ∀ (w : List Char), (∀ d ∈ w, p d = false) →
      ∀ (acc z : List Char), splitRunsGo p acc (w ++ z) = splitRunsGo p (w.reverse ++ acc) z := by
  intro w
  induction w with
  | nil => intro _ acc z; simp
  | cons c cs ih =>
    intro hw acc z
    have hc : p c = false := hw c (by simp)
    rw [List.cons_append, splitRunsGo, hc]
    simp only [Bool.false_eq_true, if_false]
    rw [ih (fun d hd => hw d (by simp [hd])) (c :: acc) z]
    simp [List.append_assoc]

theorem joinSep_cons_ne (c : Char) (w : List Char) (ws : List (List Char)) (h : ws ≠ []) :
    joinSep c (w :: ws) = w ++ c :: joinSep c ws := by
  cases ws with
  | nil => exact absurd rfl h
  | cons w2 rest => rfl

theorem joinSep_ne_nil (c : Char) (ws : List (List Char)) (hne : ws ≠ [])
    (hw : ∀ w ∈ ws, w ≠ []) : joinSep c ws ≠ [] := by
  cases ws with
  | nil => exact absurd rfl hne
  | cons w rest =>
    cases rest with
    | nil => simpa [joinSep] using hw w (by simp)
    | cons w2 r2 =>
      rw [joinSep_cons_ne c w _ (by simp)]
      simp

theorem joinSep_append (c : Char) :
    ∀ (a b : List (List Char)), a ≠ [] → b ≠ [] →
      joinSep c (a ++ b) = joinSep c a ++ c :: joinSep c b := by
  intro a
  induction a with
  | nil => intro b h; exact absurd rfl h
  | cons w rest ih =>
    intro b _ hb
    cases rest with
    | nil => simp [joinSep_cons_ne c w b hb, joinSep]
    | cons w2 r2 =>
      rw [List.cons_append]
      rw [joinSep_cons_ne c w _ (by simp)]
      rw [joinSep_cons_ne c w _ (by simp)]
      rw [ih b (by simp) hb]
      simp [List.append_assoc]

theorem splitRuns_join (p : Char → Bool) (c : Char) (hc : p c = true) :
    ∀ (ws : List (List Char)), (∀ w ∈ ws, w ≠ [] ∧ ∀ d ∈ w, p d = false) →
      splitRuns p (joinSep c ws) = ws := by
  intro ws
  induction ws with
  | nil => intro _; rfl
  | cons w rest ih =>
    intro hws
    obtain ⟨hwne, hwp⟩ := hws w (by simp)
    have hwrev : w.reverse.isEmpty = false := by
      cases w with
      | nil => exact absurd rfl hwne
      | cons d ds => simp
    cases rest with
    | nil =>
      show splitRuns p (joinSep c [w]) = [w]
      have he : joinSep c [w] = w ++ [] := by simp [joinSep]
      rw [he]
      unfold splitRuns
      rw [splitRunsGo_word p w hwp [] []]
      rw [List.append_nil, splitRunsGo, hwrev]
      simp
    | cons w2 r2 =>
      rw [joinSep_cons_ne c w _ (by simp)]
      unfold splitRuns
      rw [splitRunsGo_word p w hwp [] _]
      rw [List.append_nil, splitRunsGo, hc]
      simp only [hwrev, Bool.false_eq_true, if_false, if_true]
      have hrest := ih (fun x hx => hws x (by simp [hx]))
      unfold splitRuns at hrest
      rw [hrest]
      simp

theorem stripChar_cons_sep (p : Char → Bool) (c : Char) (s : List Char) (hc : p c = true) :
    stripChar p (c :: s) = stripChar p s := by
  unfold stripChar
  rw [List.dropWhile_cons, hc]
  simp

theorem rstrip_append_keep (p : Char → Bool) (u v : List Char)
    (hv : ∃ d ∈ v, p d = false) : rstrip p (u ++ v) = u ++ rstrip p v := by
  unfold rstrip
  rw [List.reverse_append, dropWhileAppend]
  have hne : (v.reverse.dropWhile p).isEmpty = false := by
    obtain ⟨d, hd, hdp⟩ := hv
    by_contra hcon
    have hemp : v.reverse.dropWhile p = [] := by
      cases hdw : v.reverse.dropWhile p with
      | nil => rfl
      | cons x xs => rw [hdw] at hcon; simp at hcon
    have := List.dropWhile_eq_nil_iff.mp hemp d (List.mem_reverse.mpr hd)
    rw [hdp] at this
    cases this
  rw [hne]
  simp

theorem rstrip_all (p : Char → Bool) (v : List Char) (hv : ∀ d ∈ v, p d = true) :
    rstrip p v = [] := by
  unfold rstrip
  rw [List.dropWhile_eq_nil_iff.mpr (fun x hx => hv x (List.mem_reverse.mp hx))]
  rfl

theorem rstrip_word_self (p : Char → Bool) (w : List Char) (hw : ∀ d ∈ w, p d = false) :
    rstrip p w = w := by
  unfold rstrip
  rw [dropWhile_eq_self_of_all p w.reverse (fun d hd => hw d (List.mem_reverse.mp hd))]
  simp

theorem stripChar_head_notp (p : Char → Bool) (c : Char) (s : List Char) (hc : p c = false) :
    stripChar p (c :: s) = rstrip p (c :: s) := by
  unfold stripChar rstrip
  rw [List.dropWhile_cons, hc]
  simp

theorem rstrip_eq_self_concat (p : Char → Bool) (u : List Char) (d : Char)
    (hd : p d = false) : rstrip p (u ++ [d]) = u ++ [d] := by
  unfold rstrip
  rw [List.reverse_append]
  simp [List.dropWhile_cons, hd]

theorem stripChar_join_words (p : Char → Bool) (c : Char) (ws : List (List Char))
    (hws : ∀ w ∈ ws, w ≠ [] ∧ ∀ d ∈ w, p d = false) :
    stripChar p (joinSep c ws) = joinSep c ws := by
  cases ws with
  | nil => rfl
  | cons w rest =>
    obtain ⟨hwne, hwp⟩ := hws w (by simp)
    have hrs : rstrip p (joinSep c (w :: rest)) = joinSep c (w :: rest) := by
      rcases List.eq_nil_or_concat (w :: rest) with hcon | ⟨l2, wl, hcon⟩
      · cases hcon
      · rw [List.concat_eq_append] at hcon
        obtain ⟨hwlne, hwlp⟩ := hws wl (by rw [hcon]; simp)
        rcases List.eq_nil_or_concat wl with hwl | ⟨u, e, hwl⟩
        · exact absurd hwl hwlne
        · rw [List.concat_eq_append] at hwl
          have hpe : p e = false := hwlp e (by rw [hwl]; simp)
          cases l2 with
          | nil =>
            have hj : joinSep c (w :: rest) = wl := by rw [hcon]; rfl
            rw [hj, hwl]
            exact rstrip_eq_self_concat p u e hpe
          | cons l0 ltail =>
            have hj : joinSep c (w :: rest) = joinSep c (l0 :: ltail) ++ c :: wl := by
              rw [hcon]
              exact joinSep_append c (l0 :: ltail) [wl] (by simp) (by simp)
            rw [hj]
            rw [rstrip_append_keep p _ _ ⟨e, by rw [hwl]; simp, hpe⟩]
            have h2 : rstrip p (c :: wl) = c :: wl := by
              have he2 : c :: wl = (c :: u) ++ [e] := by rw [hwl]; rfl
              rw [he2]
              exact rstrip_eq_self_concat p (c :: u) e hpe
            rw [h2]
    cases w with
    | nil => exact absurd rfl hwne
    | cons d ds =>
      have hd : p d = false := hwp d (by simp)
      cases rest with
      | nil =>
        have hj : joinSep c [d :: ds] = d :: ds := rfl
        rw [hj] at hrs ⊢
        rw [stripChar_head_notp p d ds hd]
        exact hrs
      | cons w2 r2 =>
        have hj : joinSep c ((d :: ds) :: w2 :: r2) =
            d :: (ds ++ c :: joinSep c (w2 :: r2)) := by
          rw [joinSep_cons_ne c _ _ (by simp)]
          rfl
        rw [hj] at hrs ⊢
        rw [stripChar_head_notp p d _ hd]
        exact hrs

theorem firstHit_append {α : Type} (f : Nat → Option α) :
    ∀ (l1 l2 : List Nat), (∀ i ∈ l1, f i = none) →
      firstHit f (l1 ++ l2) = firstHit f l2 := by
  intro l1
  induction l1 with
  | nil => intro l2 _; rfl
  | cons i is ih =>
    intro l2 h
    rw [List.cons_append, firstHit, h i (by simp)]
    exact ih l2 (fun j hj => h j (by simp [hj]))

theorem sbcCheck_at_full (xw yw : List (List Char))
    (hxne : xw ≠ [])
    (hxw : ∀ w ∈ xw, w ≠ [] ∧ ∀ d ∈ w, isWs d = false)
    (hyne : yw ≠ [])
    (hyw : ∀ w ∈ yw, w ≠ [] ∧ ∀ d ∈ w, isWs d = false) :
    sbcCheck (joinSpace (xw ++ xw ++ yw)) (xw ++ xw ++ yw) xw.length =
      some (joinSpace xw, joinSpace yw) := by
  have hxyw : ∀ w ∈ xw ++ yw, w ≠ [] ∧ ∀ d ∈ w, isWs d = false := by
    intro w hw
    rcases List.mem_append.mp hw with h | h
    exacts [hxw w h, hyw w h]
  have hws : isWs ' ' = true := rfl
  have htake : (xw ++ xw ++ yw).take xw.length = xw := by
    rw [List.append_assoc]
    exact List.take_left xw (xw ++ yw)
  have hs : joinSpace (xw ++ xw ++ yw) =
      joinSpace xw ++ ' ' :: joinSpace (xw ++ yw) := by
    rw [List.append_assoc]
    exact joinSep_append ' ' xw (xw ++ yw) hxne (by simp [hxne])
  have hJ : joinSpace (xw ++ yw) = joinSpace xw ++ ' ' :: joinSpace yw :=
    joinSep_append ' ' xw yw hxne hyne
  have hrest : pystrip ((joinSpace (xw ++ xw ++ yw)).drop (joinSpace xw).length) =
      joinSpace (xw ++ yw) := by
    rw [hs, List.drop_left]
    unfold pystrip
    rw [stripChar_cons_sep isWs ' ' _ hws]
    exact stripChar_join_words isWs ' ' (xw ++ yw) hxyw
  have hpref : (joinSpace xw).isPrefixOf (joinSpace (xw ++ yw)) = true := by
    rw [hJ]
    exact List.isPrefixOf_iff_prefix.mpr ⟨' ' :: joinSpace yw, rfl⟩
  have hcab : pystrip ((joinSpace (xw ++ yw)).drop (joinSpace xw).length) =
      joinSpace yw := by
    rw [hJ, List.drop_left]
    unfold pystrip
    rw [stripChar_cons_sep isWs ' ' _ hws]
    exact stripChar_join_words isWs ' ' yw hyw
  have hyemp : (joinSpace yw).isEmpty = false := by
    have hne := joinSep_ne_nil ' ' yw hyne (fun w hw => (hyw w hw).1)
    cases hj : joinSpace yw with
    | nil => exact absurd hj hne
    | cons a l => rfl
  simp only [sbcCheck, htake, hrest, hpref, hcab, hyemp]
  simp

/-- Claim C4 (amended): the round trip holds provided X consists of at
least two space-separated tokens and no shorter candidate prefix of at
least two tokens passes the doubling check before the full X does: for
such X and nonempty Y, splitting X-space-X-space-Y returns exactly (X, Y).
With a one-token X the loop (which starts at two-token candidates) misses
the doubling, and an X whose own token list restarts with a shorter
doubled prefix can make an earlier candidate fire first. -/
theorem c4_amended_roundtrip (xw yw : List (List Char))
    (hk : 2 ≤ xw.length)
    (hxw : ∀ w ∈ xw, w ≠ [] ∧ ∀ d ∈ w, isWs d = false)
    (hyne : yw ≠ [])
    (hyw : ∀ w ∈ yw, w ≠ [] ∧ ∀ d ∈ w, isWs d = false)
    (hearly : ∀ i < xw.length, 2 ≤ i →
      sbcCheck (joinSpace (xw ++ xw ++ yw)) (xw ++ xw ++ yw) i = none) :
    split_bank_cabang (joinSpace (xw ++ xw ++ yw)) = (joinSpace xw, joinSpace yw) := by
  have hxne : xw ≠ [] := by
    intro h
    rw [h] at hk
    simp at hk
  have hall : ∀ w ∈ xw ++ xw ++ yw, w ≠ [] ∧ ∀ d ∈ w, isWs d = false := by
    intro w hw
    rcases List.mem_append.mp hw with h | h
    · rcases List.mem_append.mp h with h2 | h2
      exacts [hxw w h2, hxw w h2]
    · exact hyw w h
  have hsplit : pysplit (joinSpace (xw ++ xw ++ yw)) = xw ++ xw ++ yw :=
    splitRuns_join isWs ' ' rfl (xw ++ xw ++ yw) hall
  have hywpos : 0 < yw.length := List.length_pos.mpr hyne
  have hLval : (xw ++ xw ++ yw).length = xw.length + xw.length + yw.length := by
    simp [List.length_append]
    omega
  have hrange : List.range' 2 ((xw ++ xw ++ yw).length + 1 - 2) =
      List.range' 2 (xw.length - 2) ++
        (xw.length :: List.range' (xw.length + 1) ((xw ++ xw ++ yw).length - xw.length)) := by
    have h1 := List.range'_append 2 (xw.length - 2)
      ((xw ++ xw ++ yw).length - xw.length + 1) 1
    have e1 : 2 + 1 * (xw.length - 2) = xw.length := by omega
    have e2 : ((xw ++ xw ++ yw).length - xw.length + 1) + (xw.length - 2) =
        (xw ++ xw ++ yw).length + 1 - 2 := by omega
    rw [e1, e2] at h1
    rw [← h1, List.range'_succ]
  have hnone : ∀ i ∈ List.range' 2 (xw.length - 2),
      sbcCheck (joinSpace (xw ++ xw ++ yw)) (xw ++ xw ++ yw) i = none := by
    intro i hi
    obtain ⟨h2i, hik⟩ := List.mem_range'_1.mp hi
    exact hearly i (by omega) h2i
  have hfull := sbcCheck_at_full xw yw hxne hxw hyne hyw
  have hfirst : firstHit (sbcCheck (joinSpace (xw ++ xw ++ yw)) (xw ++ xw ++ yw))
      (List.range' 2 ((xw ++ xw ++ yw).length + 1 - 2)) =
      some (joinSpace xw, joinSpace yw) := by
    rw [hrange, firstHit_append _ _ _ hnone, firstHit, hfull]
  simp only [split_bank_cabang, hsplit, hfirst]

/-- Witness for C4 at the concrete doubled bank name of the source's
doc-comment. -/
theorem c4_witness :
    split_bank_cabang (joinSpace (["BANK".toList, "MANDIRI".toList] ++
        ["BANK".toList, "MANDIRI".toList] ++ ["KC".toList, "TJ.PINANG".toList])) =
      (joinSpace ["BANK".toList, "MANDIRI".toList],
       joinSpace ["KC".toList, "TJ.PINANG".toList]) :=
  c4_amended_roundtrip ["BANK".toList, "MANDIRI".toList] ["KC".toList, "TJ.PINANG".toList]
    (by decide) (by decide) (by decide) (by decide) (by decide)

/-! ## Claim C9, amended theorem -/

theorem dropWhile_head_false (q : Char → Bool) :
    ∀ (l : List Char) (d : Char) (z2 : List Char), l.dropWhile q = d :: z2 → q d = false := by
  intro l
  induction l with
  | nil => intro d z2 h; cases h
  | cons a l ih =>
    intro d z2 h
    rw [List.dropWhile_cons] at h
    by_cases ha : q a
    · rw [if_pos ha] at h
      exact ih d z2 h
    · rw [if_neg ha] at h
      injection h with h1 _
      subst h1
      exact Bool.eq_false_iff.mpr ha

theorem rstrip_append_word (p : Char → Bool) (w v : List Char)
    (hw : ∀ d ∈ w, p d = false) : rstrip p (w ++ v) = w ++ rstrip p v := by
  by_cases hv : ∀ d ∈ v, p d = true
  · rw [rstrip_all p v hv, List.append_nil]
    unfold rstrip
    rw [List.reverse_append, dropWhileAppend]
    rw [List.dropWhile_eq_nil_iff.mpr (fun x hx => hv x (List.mem_reverse.mp hx))]
    simp only [List.isEmpty_nil, if_true]
    rw [dropWhile_eq_self_of_all p w.reverse (fun d hd => hw d (List.mem_reverse.mp hd))]
    simp
  · push_neg at hv
    obtain ⟨d, hd, hdp⟩ := hv
    exact rstrip_append_keep p w v ⟨d, hd, Bool.eq_false_iff.mpr hdp⟩

theorem collapse_word (p : Char → Bool) (rep : Char) :
    ∀ (w : List Char), (∀ d ∈ w, p d = false) →
      ∀ u, collapseRunsGo p rep false (w ++ u) = w ++ collapseRunsGo p rep false u := by
  intro w
  induction w with
  | nil => intro _ u; rfl
  | cons d ds ih =>
    intro hw u
    rw [List.cons_append, collapseRunsGo, hw d (by simp)]
    simp only [Bool.false_eq_true, if_false]
    rw [ih (fun x hx => hw x (by simp [hx])) u]
    rfl

theorem collapse_true_run (p : Char → Bool) (rep : Char) :
    ∀ (run : List Char), (∀ d ∈ run, p d = true) →
      ∀ u, collapseRunsGo p rep true (run ++ u) = collapseRunsGo p rep true u := by
  intro run
  induction run with
  | nil => intro _ u; rfl
  | cons d ds ih =>
    intro hr u
    rw [List.cons_append, collapseRunsGo, hr d (by simp)]
    simp only [if_true]
    exact ih (fun x hx => hr x (by simp [hx])) u

theorem collapse_notp_cons (p : Char → Bool) (rep : Char) (b : Bool) (e : Char)
    (u : List Char) (he : p e = false) :
    collapseRunsGo p rep b (e :: u) = e :: collapseRunsGo p rep false u := by
  rw [collapseRunsGo, he]
  simp

theorem collapse_sep_cons (p : Char → Bool) (rep : Char) (d : Char) (u : List Char)
    (hd : p d = true) :
    collapseRunsGo p rep false (d :: u) = rep :: collapseRunsGo p rep true u := by
  rw [collapseRunsGo, hd]
  simp

theorem stripChar_run_prefix (p : Char → Bool) :
    ∀ (run : List Char), (∀ d ∈ run, p d = true) →
      ∀ v, stripChar p (run ++ v) = stripChar p v := by
  intro run
  induction run with
  | nil => intro _ v; rfl
  | cons d ds ih =>
    intro hr v
    rw [List.cons_append, stripChar_cons_sep p d _ (hr d (by simp))]
    exact ih (fun x hx => hr x (by simp [hx])) v

theorem splitRuns_sep_cons (p : Char → Bool) (d : Char) (z : List Char) (hd : p d = true) :
    splitRuns p (d :: z) = splitRuns p z := by
  unfold splitRuns
  rw [splitRunsGo, hd]
  simp

theorem splitRuns_run_prefix (p : Char → Bool) :
    ∀ (run : List Char), (∀ d ∈ run, p d = true) →
      ∀ v, splitRuns p (run ++ v) = splitRuns p v := by
  intro run
  induction run with
  | nil => intro _ v; rfl
  | cons d ds ih =>
    intro hr v
    rw [List.cons_append, splitRuns_sep_cons p d _ (hr d (by simp))]
    exact ih (fun x hx => hr x (by simp [hx])) v

theorem splitRuns_all_p (p : Char → Bool) (z : List Char) (hz : ∀ d ∈ z, p d = true) :
    splitRuns p z = [] := by
  have h := splitRuns_run_prefix p z hz []
  rw [List.append_nil] at h
  rw [h]
  rfl

theorem splitRunsGo_ne_nil (p : Char → Bool) :
    ∀ (z acc : List Char), acc ≠ [] → splitRunsGo p acc z ≠ [] := by
  intro z
  induction z with
  | nil =>
    intro acc hacc
    rw [splitRunsGo]
    have : acc.isEmpty = false := by
      cases acc with
      | nil => exact absurd rfl hacc
      | cons a l => rfl
    simp [this]
  | cons c cs ih =>
    intro acc hacc
    rw [splitRunsGo]
    by_cases hc : p c
    · have : acc.isEmpty = false := by
        cases acc with
        | nil => exact absurd rfl hacc
        | cons a l => rfl
      simp [hc, this]
    · simp only [hc, Bool.false_eq_true, if_false]
      exact ih (c :: acc) (by simp)

theorem splitRuns_ne_nil_of_word (p : Char → Bool) (e : Char) (z4 : List Char)
    (he : p e = false) : splitRuns p (e :: z4) ≠ [] := by
  unfold splitRuns
  rw [splitRunsGo, he]
  simp only [Bool.false_eq_true, if_false]
  exact splitRunsGo_ne_nil p z4 [e] (by simp)

theorem splitRuns_word_cons (p : Char → Bool) (w z : List Char) (hwne : w ≠ [])
    (hwall : ∀ d ∈ w, p d = false)
    (hz : z = [] ∨ ∃ d z2, z = d :: z2 ∧ p d = true) :
    splitRuns p (w ++ z) = w :: splitRuns p z := by
  have hwrev : w.reverse.isEmpty = false := by
    cases w with
    | nil => exact absurd rfl hwne
    | cons a l => simp
  unfold splitRuns
  rw [splitRunsGo_word p w hwall [] z, List.append_nil]
  rcases hz with rfl | ⟨d, z2, rfl, hd⟩
  · rw [splitRunsGo]
    simp [hwrev, splitRunsGo]
  · rw [splitRunsGo, hd]
    simp only [if_true, hwrev, Bool.false_eq_true, if_false]
    have hr : splitRunsGo p [] (d :: z2) = splitRunsGo p [] z2 := by
      rw [splitRunsGo, hd]
      simp
    rw [hr]
    simp

theorem collapse_strip_bridgeGo (p : Char → Bool) (rep : Char) :
    ∀ (n : Nat) (s : List Char), s.length ≤ n →
      collapseRunsGo p rep false (stripChar p s) = joinSep rep (splitRuns p s) := by
  intro n
  induction n with
  | zero =>
    intro s hl
    rw [List.eq_nil_of_length_eq_zero (Nat.le_zero.mp hl)]
    rfl
  | succ n ih =>
    intro s hl
    cases s with
    | nil => rfl
    | cons c cs =>
      by_cases hc : p c
      · rw [stripChar_cons_sep p c cs hc, splitRuns_sep_cons p c cs hc]
        exact ih cs (by simp only [List.length_cons] at hl; omega)
      · have hcf : p c = false := Bool.eq_false_iff.mpr hc
        have hswz : c :: cs = (c :: cs).takeWhile (fun d => !p d) ++
            (c :: cs).dropWhile (fun d => !p d) := (List.takeWhile_append_dropWhile _ _).symm
        have hwhead : (c :: cs).takeWhile (fun d => !p d) =
            c :: cs.takeWhile (fun d => !p d) := by
          rw [List.takeWhile_cons]
          simp [hcf]
        have hwall : ∀ d ∈ (c :: cs).takeWhile (fun d => !p d), p d = false := by
          intro d hd
          have := List.mem_takeWhile_imp hd
          simpa using this
        have hwne : (c :: cs).takeWhile (fun d => !p d) ≠ [] := by
          rw [hwhead]
          simp
        have hzshape : (c :: cs).dropWhile (fun d => !p d) = [] ∨
            ∃ d z2, (c :: cs).dropWhile (fun d => !p d) = d :: z2 ∧ p d = true := by
          cases hz : (c :: cs).dropWhile (fun d => !p d) with
          | nil => exact Or.inl rfl
          | cons d z2 =>
            refine Or.inr ⟨d, z2, rfl, ?_⟩
            have := dropWhile_head_false (fun d => !p d) (c :: cs) d z2 hz
            simpa using this
        have hstrip : stripChar p (c :: cs) = rstrip p (c :: cs) :=
          stripChar_head_notp p c cs hcf
        have hsplitw : splitRuns p (c :: cs) =
            (c :: cs).takeWhile (fun d => !p d) ::
              splitRuns p ((c :: cs).dropWhile (fun d => !p d)) := by
          conv in splitRuns p (c :: cs) => rw [hswz]
          exact splitRuns_word_cons p _ _ hwne hwall hzshape
        rw [hstrip, hsplitw]
        conv in rstrip p (c :: cs) => rw [hswz]
        rw [rstrip_append_word p _ _ hwall]
        rw [collapse_word p rep _ hwall]
        rcases hzshape with hz | ⟨d, z2, hz, hd⟩
        · rw [hz]
          simp [rstrip, splitRuns, splitRunsGo, joinSep, collapseRunsGo]
        · rw [hz]
          by_cases hz2 : ∀ x ∈ z2, p x = true
          · have hallz : ∀ x ∈ d :: z2, p x = true := by
              intro x hx
              rcases List.mem_cons.mp hx with rfl | hx2
              exacts [hd, hz2 x hx2]
            rw [rstrip_all p _ hallz, splitRuns_all_p p _ hallz]
            simp [joinSep, collapseRunsGo]
          · push_neg at hz2
            obtain ⟨e0, he0, he0p⟩ := hz2
            have he0f : p e0 = false := Bool.eq_false_iff.mpr he0p
            have hrz : rstrip p (d :: z2) = d :: rstrip p z2 := by
              have := rstrip_append_keep p [d] z2 ⟨e0, he0, he0f⟩
              simpa using this
            rw [hrz, collapse_sep_cons p rep d _ hd]
            have hsz : splitRuns p (d :: z2) = splitRuns p z2 :=
              splitRuns_sep_cons p d z2 hd
            rw [hsz]
            -- length bookkeeping for the inner induction
            have hlz2 : z2.length ≤ n := by
              have hlen := congrArg List.length hswz
              rw [hz] at hlen
              simp only [List.length_cons, List.length_append] at hlen hl
              have hwlen : 1 ≤ ((c :: cs).takeWhile (fun d => !p d)).length := by
                rw [hwhead]
                simp
              omega
            -- z2 decomposes into a leading p-run and a word-headed tail
            have hz2d : z2 = z2.takeWhile p ++ z2.dropWhile p :=
              (List.takeWhile_append_dropWhile _ _).symm
            have hrun : ∀ x ∈ z2.takeWhile p, p x = true := fun x hx =>
              List.mem_takeWhile_imp hx
            have hz3 : ∃ e z4, z2.dropWhile p = e :: z4 ∧ p e = false := by
              cases hzz : z2.dropWhile p with
              | nil =>
                exfalso
                have : ∀ x ∈ z2, p x = true := by
                  intro x hx
                  by_contra hpx
                  have hxf : p x = false := Bool.eq_false_iff.mpr hpx
                  have : x ∈ z2.dropWhile p ++ z2.takeWhile p := by
                    rcases List.mem_append.mp (hz2d ▸ hx) with h1 | h1
                    · exfalso
                      have := hrun x h1
                      rw [hxf] at this
                      cases this
                    · exact List.mem_append.mpr (Or.inl h1)
                  rw [hzz] at this
                  simp at this
                  have := hrun x this
                  rw [hxf] at this
                  cases this
                have := this e0 he0
                rw [he0f] at this
                cases this
              | cons e z4 =>
                exact ⟨e, z4, rfl, dropWhile_head_false p z2 e z4 hzz⟩
            obtain ⟨e, z4, hze, hef⟩ := hz3
            -- left side: collapse in state true over the run, then the word head
            have hL : collapseRunsGo p rep true (rstrip p z2) =
                collapseRunsGo p rep false (stripChar p z2) := by
              have hv4 : rstrip p (e :: z4) = e :: rstrip p z4 := by
                have := rstrip_append_word p [e] z4 (by simpa using hef)
                simpa using this
              have hrz2 : rstrip p z2 = z2.takeWhile p ++ rstrip p (e :: z4) := by
                conv in rstrip p z2 => rw [hz2d, hze]
                exact rstrip_append_keep p _ _ ⟨e, by simp, hef⟩
              have hsz2 : stripChar p z2 = stripChar p (e :: z4) := by
                conv in stripChar p z2 => rw [hz2d, hze]
                exact stripChar_run_prefix p _ hrun _
              rw [hrz2, collapse_true_run p rep _ hrun, hv4,
                collapse_notp_cons p rep true e _ hef,
                hsz2, stripChar_head_notp p e z4 hef, hv4,
                collapse_notp_cons p rep false e _ hef]
            rw [hL, ih z2 hlz2]
            have hsnn : splitRuns p z2 ≠ [] := by
              rw [hz2d, hze, splitRuns_run_prefix p _ hrun]
              exact splitRuns_ne_nil_of_word p e z4 hef
            rw [joinSep_cons_ne rep _ _ hsnn]

/-- Bridge between the source's strip-then-collapse pipeline and the
amended claim's split-and-join description. -/
theorem collapse_strip_bridge (p : Char → Bool) (rep : Char) (s : List Char) :
    collapseRunsGo p rep false (stripChar p s) = joinSep rep (splitRuns p s) :=
  collapse_strip_bridgeGo p rep s.length s le_rfl

/-- Claim C9 (amended): the derived output name keeps word characters and
hyphens of the basename-without-extension, replaces every other character
by an underscore, strips underscores from both ends, collapses underscore
runs to one (equivalently: joins the nonempty runs between underscores
with single underscores), appends the fixed suffix, and is deterministic. -/
theorem c9_amended_name (pth : List Char) :
    auto_output_name pth = auto_output_name_amended pth ∧
    (∀ q : List Char, q = pth → auto_output_name q = auto_output_name pth) := by
  constructor
  · simp only [auto_output_name, auto_output_name_amended]
    rw [collapse_strip_bridge]
  · intro q h
    rw [h]

/-- Witness for C9 at a concrete file name. -/
theorem c9_witness :
    auto_output_name "a-b!.pdf".toList = auto_output_name_amended "a-b!.pdf".toList ∧
    auto_output_name "a-b!.pdf".toList = auto_output_name "a-b!.pdf".toList :=
  ⟨(c9_amended_name "a-b!.pdf".toList).1,
   (c9_amended_name "a-b!.pdf".toList).2 "a-b!.pdf".toList rfl⟩
